import Mathlib

/-!
Verification development for the `@signalforge/validation` engine.

The TypeScript core (src/validator.ts, src/parser.ts, src/condition.ts,
src/wildcard.ts, src/utils/get.ts, src/utils/is-empty.ts, src/errors.ts,
src/rules/*) is shallowly embedded below.  JSON-like runtime values are
modelled by the inductive `Value`; JavaScript objects are association lists
of key/value pairs kept in property-creation order, and `jsKeyOrder` models
the ECMAScript own-property enumeration order (canonical array-index keys
first, in ascending numeric order, then the remaining string keys in
creation order), which is what `Object.entries` returns.

Modelling conventions, used consistently and noted where they matter:
* numbers are modelled as integers (`Int`); float-specific behaviour is
  outside the model and flagged at each definition it touches;
* string trimming uses the ASCII whitespace set (space, tab, CR, LF);
* strict equality (`===`) on two arrays/objects is reference equality in
  JavaScript; distinct literals are never identical, so the embedding
  returns `false` for any array/object comparison;
* regular-expression machinery (the `regex`-family leaf rules and the
  `@matches` self-condition) is outside the modelled scope, as are the
  bodies of most leaf rules (the spec treats leaf rules as external
  collaborators); for those rules only the registered name and the two
  control flags are semantically relevant here.

The embedding has two layers.  The value-level layer (`Value`, `get`,
`set`, `validate`, ...) treats records as trees and gives the per-call
functional behaviour of the engine.  The heap-level layer (`HVal`,
`Store`, `hGet`, `hSet`, `hValidate`, ...) additionally models JS
reference semantics: containers live in a store and are passed by
address, so the sharing the source creates when `set(validated, path,
value)` stores a reference obtained from the input record — and the
input-record mutation a later `set` performs by writing through that
shared container — are observable.
-/

namespace Validation

/-- JS-like runtime values: `null`, `undefined`, booleans, numbers
(modelled as integers), strings, arrays, and plain objects whose
properties are listed in creation order. -/
inductive Value where
  | vNull
  | vUndefined
  | vBool (b : Bool)
  | vNum (n : Int)
  | vStr (s : String)
  | vArr (elems : List Value)
  | vObj (props : List (String × Value))

/-- JS property assignment `obj[k] = v` on an object modelled as an
association list: an existing key is updated in place (its position is
kept), a new key is appended.  `Map.prototype.set` has the same
semantics, so the same function models both. -/
def assocSet {α : Type} : List (String × α) → String → α → List (String × α)
  | [], k, v => [(k, v)]
  | p :: ps, k, v => if p.1 == k then (k, v) :: ps else p :: assocSet ps k v

/-- Association-list lookup (first occurrence). -/
def assocGet {α : Type} (l : List (String × α)) (k : String) : Option α :=
  (l.find? (fun p => p.1 == k)).map (fun p => p.2)

/-- ASCII whitespace, the fragment of the JS whitespace set used by the
embedding (space, tab, line feed, carriage return). -/
def isWS (c : Char) : Bool := c == ' ' || c == '\t' || c == '\n' || c == '\r'

/-- String.prototype.trim modelled over the character list: drop leading
whitespace, then trailing whitespace. -/
def trimWS (s : String) : String :=
  String.mk ((((s.toList.dropWhile isWS).reverse.dropWhile isWS).reverse))

/-- Split a character list on a separator character (JS
`String.prototype.split` with a single-character separator). -/
def splitChars (sep : Char) : List Char → List (List Char)
  | [] => [[]]
  | c :: cs =>
    let r := splitChars sep cs
    if c == sep then [] :: r
    else
      match r with
      | [] => [[c]]
      | g :: gs => (c :: g) :: gs

/-- `path.split('.')` -/
def splitDots (s : String) : List String := (splitChars '.' s.toList).map String.mk

/-- Numeric value of a list of decimal digits. -/
def digitsVal (l : List Char) : Nat := l.foldl (fun a c => a * 10 + (c.toNat - '0'.toNat)) 0

/-- Parse a string of decimal digits (nothing else) to a natural number. -/
def decNat? (s : String) : Option Nat :=
  let l := s.toList
  if !l.isEmpty && l.all Char.isDigit then some (digitsVal l) else none

/-- Whether a string is a canonical ECMAScript array-index key: the
decimal representation, without leading zeros or sign, of an integer
below 2^32 - 1.  Such keys are the ones arrays expose and the ones
enumerated first (ascending) on plain objects. -/
def isArrayIndex (s : String) : Bool :=
  match decNat? s with
  | some n => toString n == s && n < 4294967295
  | none => false

/-- Numeric value of an array-index key (0 when not one; only used on
keys that satisfy `isArrayIndex`). -/
def idxKeyVal (s : String) : Nat := (decNat? s).getD 0

/-- Insert a keyed entry into a list sorted by ascending array-index
value (insertion sort step). -/
def insertIdxKey {α : Type} (p : String × α) : List (String × α) → List (String × α)
  | [] => [p]
  | q :: qs => if idxKeyVal p.1 < idxKeyVal q.1 then p :: q :: qs else q :: insertIdxKey p qs

/-- Sort keyed entries by ascending array-index value. -/
def sortIdxKeys {α : Type} : List (String × α) → List (String × α)
  | [] => []
  | p :: ps => insertIdxKey p (sortIdxKeys ps)

/-- ECMAScript own-property enumeration order (`OrdinaryOwnPropertyKeys`,
the order `Object.entries` returns): canonical array-index keys first in
ascending numeric order, then the remaining keys in property-creation
order. -/
def jsKeyOrder {α : Type} (props : List (String × α)) : List (String × α) :=
  sortIdxKeys (props.filter (fun p => isArrayIndex p.1)) ++
    props.filter (fun p => !isArrayIndex p.1)

/-- Property read `obj[k]` on an object (absent keys read as `undefined`). -/
def propGet (props : List (String × Value)) (k : String) : Value :=
  match assocGet props k with
  | some v => v
  | none => Value.vUndefined

/-- Element read `arr[k]` on an array with a string key: only canonical
array-index keys address elements; anything else (including non-canonical
numerals such as "00") reads as `undefined`.  Named properties stored on
arrays are not representable in `Value`. -/
def arrGet (xs : List Value) (k : String) : Value :=
  if isArrayIndex k then xs.getD (idxKeyVal k) Value.vUndefined else Value.vUndefined

/-- Member read `current[part]` for an object-like `current`; any access
on a non-object (including `null`, which is falsy and short-circuited by
the source guards) yields `undefined`. -/
def jsIndex : Value → String → Value
  | Value.vObj props, k => propGet props k
  | Value.vArr xs, k => arrGet xs k
  | _, _ => Value.vUndefined

/-- The per-segment walk of `get` (src/utils/get.ts): returns `undefined`
as soon as the current container is null/undefined or not an object,
otherwise indexes by the segment and continues. -/
def getLoop : List String → Value → Value
  | [], current => current
  | part :: rest, current =>
    match current with
    | Value.vNull => Value.vUndefined
    | Value.vUndefined => Value.vUndefined
    | Value.vBool _ => Value.vUndefined
    | Value.vNum _ => Value.vUndefined
    | Value.vStr _ => Value.vUndefined
    | Value.vArr xs => getLoop rest (arrGet xs part)
    | Value.vObj props => getLoop rest (propGet props part)

/-- `get(data, path)` (src/utils/get.ts): dot-path read; the empty path
is falsy in JS and short-circuits to `undefined`. -/
def get (data : Value) (path : String) : Value :=
  if path == "" then Value.vUndefined
  else getLoop (splitDots path) data

/-- `/^\d+$/.test(s)`: at least one character, all decimal digits. -/
def isDigitsNonempty (s : String) : Bool :=
  let l := s.toList
  !l.isEmpty && l.all Char.isDigit

/-- Assignment `current[k] = v` at the value level.  On objects it is
property assignment; on arrays a canonical index within bounds replaces
the element, the index at the length appends, and a larger index pads
with holes (holes read back as `undefined`, which is how the embedding
stores them).  A named (non-index) property on an array is not
representable in `Value` and is dropped here; the heap-level
`hObjAssign` below stores it, as JS does.  Assignments to non-containers
are dropped (the source never performs them: `set` creates a container
first). -/
def jsAssign : Value → String → Value → Value
  | Value.vObj props, k, v => Value.vObj (assocSet props k v)
  | Value.vArr xs, k, v =>
    if isArrayIndex k then
      let n := idxKeyVal k
      if n < xs.length then Value.vArr (xs.set n v)
      else Value.vArr (xs ++ List.replicate (n - xs.length) Value.vUndefined ++ [v])
    else Value.vArr xs
  | current, _, _ => current

/-- The walk of `set` (src/utils/get.ts) at the value level: at each
intermediate segment, keep the existing child when it is an object or
array (`part in current`, `typeof current[part] === 'object'`, and not
`null` all hold exactly then), otherwise create a fresh `[]` when the
next segment is all digits and a fresh container otherwise; write the
value at the final segment.  A kept child that in the source is a
reference into the input record is, here, a copy — see `hSetLoop` for
the reference-level walk. -/
def setLoop : List String → Value → Value → Value
  | [], current, _ => current
  | [last], current, v => jsAssign current last v
  | part :: rest, current, v =>
    let child := jsIndex current part
    let child' :=
      match child with
      | Value.vObj _ => child
      | Value.vArr _ => child
      | _ => if isDigitsNonempty (rest.headD "") then Value.vArr [] else Value.vObj []
    jsAssign current part (setLoop rest child' v)

/-- `set(data, path, value)` (src/utils/get.ts) at the value level: the
tree that results from the write, on the tree the function is given; the
empty path is falsy and a no-op.  This layer deliberately works on value
trees, so it does not express what the source's walk does when an
intermediate child is a container shared by reference with the input
record — the write then lands in the input record.  That reference
behaviour is modelled faithfully by the heap-level `hSet`/`hValidate`
below, which exhibit the resulting input mutation. -/
def set (data : Value) (path : String) (v : Value) : Value :=
  if path == "" then data else setLoop (splitDots path) data v

/-- `isEmpty` (src/utils/is-empty.ts): null, undefined, whitespace-only
strings and empty arrays are empty; everything else (including `0`,
`false` and `{}`) is not. -/
def isEmpty : Value → Bool
  | Value.vNull => true
  | Value.vUndefined => true
  | Value.vStr s => trimWS s == ""
  | Value.vArr xs => xs.isEmpty
  | Value.vBool _ => false
  | Value.vNum _ => false
  | Value.vObj _ => false

/-- `isFilled` (src/utils/is-empty.ts). -/
def isFilled (v : Value) : Bool := !isEmpty v

/-- `isWildcardPattern` (src/wildcard.ts): the path contains a `*`
character anywhere. -/
def isWildcardPattern (path : String) : Bool := path.toList.contains '*'

/-- `expandRecursive` (src/wildcard.ts).  The accumulated result models
the mutated `Map`: completed concrete paths are inserted with `Map.set`
semantics (`assocSet`).  At a `*` segment an array is iterated by
`forEach` in ascending index order and an object by `Object.entries` in
`jsKeyOrder`; any other value (including `null`, which fails the
truthiness guard) contributes nothing.  At a literal segment the walk
descends through object-like values and into `undefined` otherwise. -/
def expandRecursive : List String → Value → String → List (String × Value) → List (String × Value)
  | [], current, path, result => assocSet result (path.drop 1) current
  | part :: rest, current, path, result =>
    let recur := expandRecursive rest
    if part == "*" then
      match current with
      | Value.vArr xs =>
        xs.enum.foldl (fun acc p => recur p.2 (path ++ "." ++ toString p.1) acc) result
      | Value.vObj props =>
        (jsKeyOrder props).foldl (fun acc p => recur p.2 (path ++ "." ++ p.1) acc) result
      | _ => result
    else
      recur (jsIndex current part) (path ++ "." ++ part) result

/-- `expandWildcards(pattern, data)` (src/wildcard.ts): without a `*` the
pattern maps to the single pair `(pattern, get(data, pattern))`;
otherwise the ordered recursive expansion runs from the root. -/
def expandWildcards (pattern : String) (data : Value) : List (String × Value) :=
  if !isWildcardPattern pattern then [(pattern, get data pattern)]
  else expandRecursive (splitDots pattern) data "" []

mutual
/-- Conditions (src/types.ts), decoded into a tagged union as the spec
prescribes.  Compound conditions carry their sub-condition list as the
mutually inductive `ConditionList` (isomorphic to `List Condition`).
The `@matches` self-condition needs a regular-expression engine and is
outside the modelled scope; no theorem below depends on it.  The typed
wire format guarantees that `fCond` carries a comparator-family operator,
that `fIn`/`fNotIn` carry a list, and that `fFilled`/`fEmpty` carry no
third element. -/
inductive Condition where
  | cAnd (cs : ConditionList)
  | cOr (cs : ConditionList)
  | sEmpty
  | sFilled
  | sLength (op : String) (expected : Int)
  | sValue (op : String) (expected : Value)
  | sType (expected : String)
  | fCond (field : String) (op : String) (expected : Value)
  | fIn (field : String) (expected : List Value)
  | fNotIn (field : String) (expected : List Value)
  | fFilled (field : String)
  | fEmpty (field : String)
inductive ConditionList where
  | nil
  | cons (c : Condition) (cs : ConditionList)
end

/-- JS strict equality (`===`) on the modelled values.  Two arrays or
objects are strictly equal in JS only when they are the same reference;
values appearing on the two sides here come from independently built
structures (rule spec vs. input record), so the embedding returns `false`
for them. -/
def strictEq : Value → Value → Bool
  | Value.vNull, Value.vNull => true
  | Value.vUndefined, Value.vUndefined => true
  | Value.vBool a, Value.vBool b => a == b
  | Value.vNum a, Value.vNum b => a == b
  | Value.vStr a, Value.vStr b => a == b
  | _, _ => false

/-- Lexicographic (code-unit) comparison of character lists, the order JS
uses when comparing two strings with a relational operator. -/
def charListLt : List Char → List Char → Bool
  | [], [] => false
  | [], _ :: _ => true
  | _ :: _, [] => false
  | a :: as, b :: bs => if a < b then true else if b < a then false else charListLt as bs

/-- JS relational string order. -/
def jsStrLt (a b : String) : Bool := charListLt a.toList b.toList

/-- `Number(s)` for a string, in the integer value model: whitespace-only
strings coerce to 0, optionally signed decimal integer literals to their
value, and everything else to NaN (`none`).  Float, hexadecimal and
exponent literals are outside the integer model and also map to `none`. -/
def jsStringToNumber (s : String) : Option Int :=
  match (trimWS s).toList with
  | [] => some 0
  | '-' :: rest =>
    if !rest.isEmpty && rest.all Char.isDigit then some (-(digitsVal rest : Int)) else none
  | '+' :: rest =>
    if !rest.isEmpty && rest.all Char.isDigit then some ((digitsVal rest : Int)) else none
  | l =>
    if l.all Char.isDigit then some ((digitsVal l : Int)) else none

/-- `ToNumber` on the modelled values (`none` is NaN): numbers are
themselves, booleans 1/0, `null` 0, `undefined` NaN, strings parse as
above; an empty array coerces to 0 and a singleton array to the coercion
of its element's string form (deeper array nesting is approximated by
NaN); objects coerce to NaN. -/
def toNumber : Value → Option Int
  | Value.vNum n => some n
  | Value.vBool true => some 1
  | Value.vBool false => some 0
  | Value.vNull => some 0
  | Value.vUndefined => none
  | Value.vStr s => jsStringToNumber s
  | Value.vArr [] => some 0
  | Value.vArr [Value.vNum n] => some n
  | Value.vArr [Value.vStr s] => jsStringToNumber s
  | Value.vArr [Value.vNull] => some 0
  | Value.vArr [Value.vUndefined] => some 0
  | Value.vArr _ => none
  | Value.vObj _ => none

/-- The numeric leg of the JS relational comparison: both sides coerce
with `ToNumber`, and the result is `none` (meaning every relational
operator is false) when either side is NaN. -/
def jsNumCmp (a b : Value) : Option Ordering :=
  match toNumber a, toNumber b with
  | some m, some n =>
    some (if m < n then Ordering.lt else if m == n then Ordering.eq else Ordering.gt)
  | _, _ => none

/-- JS abstract relational comparison as a three-way result: two strings
compare lexicographically; everything else takes the numeric leg. -/
def jsCmp (a b : Value) : Option Ordering :=
  match a, b with
  | Value.vStr x, Value.vStr y =>
    if jsStrLt x y then some Ordering.lt
    else if x == y then some Ordering.eq
    else some Ordering.gt
  | _, _ => jsNumCmp a b

/-- `compare` (src/condition.ts): `=`/`!=` are strict equality, the four
ordering operators are the JS relational operators, and any other
operator string yields false. -/
def compare (a : Value) (op : String) (b : Value) : Bool :=
  if op == "=" then strictEq a b
  else if op == "!=" then !strictEq a b
  else if op == ">" then jsCmp a b == some Ordering.gt
  else if op == ">=" then jsCmp a b == some Ordering.gt || jsCmp a b == some Ordering.eq
  else if op == "<" then jsCmp a b == some Ordering.lt
  else if op == "<=" then jsCmp a b == some Ordering.lt || jsCmp a b == some Ordering.eq
  else false

/-- `typeof` on the modelled values. -/
def typeofStr : Value → String
  | Value.vUndefined => "undefined"
  | Value.vBool _ => "boolean"
  | Value.vNum _ => "number"
  | Value.vStr _ => "string"
  | Value.vNull => "object"
  | Value.vArr _ => "object"
  | Value.vObj _ => "object"

/-- `evaluateSelfCondition` (src/condition.ts): `@empty`/`@filled` use the
canonical emptiness predicate; `@length` measures string length, array
length, or 0 for anything else; `@value` and `@type` as in the source;
the switch default is false.  String length counts characters; the JS
UTF-16 code-unit count coincides for the values considered here. -/
def evaluateSelfCondition (c : Condition) (value : Value) : Bool :=
  match c with
  | Condition.sEmpty => isEmpty value
  | Condition.sFilled => !isEmpty value
  | Condition.sLength op expected =>
    let len : Int :=
      match value with
      | Value.vStr s => (s.length : Int)
      | Value.vArr xs => (xs.length : Int)
      | _ => 0
    compare (Value.vNum len) op (Value.vNum expected)
  | Condition.sValue op expected => compare value op expected
  | Condition.sType expected =>
    if expected == "array" then
      match value with
      | Value.vArr _ => true
      | _ => false
    else typeofStr value == expected
  | _ => false

/-- `evaluateFieldCondition` (src/condition.ts): resolve the other field
with `get`, then `filled`/`empty` use the emptiness predicate,
`in`/`not_in` use `Array.prototype.includes` (SameValueZero, which
coincides with strict equality on the modelled values), and every other
operator goes through `compare`. -/
def evaluateFieldCondition (c : Condition) (data : Value) : Bool :=
  match c with
  | Condition.fFilled field => !isEmpty (get data field)
  | Condition.fEmpty field => isEmpty (get data field)
  | Condition.fIn field expected => expected.any (fun e => strictEq e (get data field))
  | Condition.fNotIn field expected => !(expected.any (fun e => strictEq e (get data field)))
  | Condition.fCond field op expected => compare (get data field) op expected
  | _ => false

mutual
/-- `evaluateCondition` (src/condition.ts): compound `and`/`or` evaluate
their sub-conditions with short-circuit; `@`-prefixed conditions are
self-referential; the rest are field conditions.  The current field name
is received but unused, as in the source. -/
def evaluateCondition (c : Condition) (currentValue : Value) (allData : Value)
    (currentField : String) : Bool :=
  match c with
  | Condition.cAnd cs => evalEvery cs currentValue allData currentField
  | Condition.cOr cs => evalSome cs currentValue allData currentField
  | Condition.sEmpty | Condition.sFilled | Condition.sLength _ _
  | Condition.sValue _ _ | Condition.sType _ => evaluateSelfCondition c currentValue
  | _ => evaluateFieldCondition c allData

/-- `Array.prototype.every` over sub-conditions (short-circuit and). -/
def evalEvery (cs : ConditionList) (v : Value) (d : Value) (f : String) : Bool :=
  match cs with
  | ConditionList.nil => true
  | ConditionList.cons c rest => evaluateCondition c v d f && evalEvery rest v d f

/-- `Array.prototype.some` over sub-conditions (short-circuit or). -/
def evalSome (cs : ConditionList) (v : Value) (d : Value) (f : String) : Bool :=
  match cs with
  | ConditionList.nil => false
  | ConditionList.cons c rest => evaluateCondition c v d f || evalSome rest v d f
end

/-- A structured validation error (src/types.ts): a translation key plus
interpolation parameters.  Parameter values are strings or numbers in the
source; they are carried as `Value`s here. -/
structure ValidationError where
  key : String
  params : List (String × Value)

/-- A rule handler (src/types.ts).  In the source both flags are optional;
the engine reads `bailOnFailure` by truthiness (absent means false) and
`skipIfEmpty` as `!== false` (absent means true), which the Lean default
values encode directly. -/
structure RuleHandler where
  name : String
  validate : Value → List Value → Value → String → Option ValidationError
  bailOnFailure : Bool := false
  skipIfEmpty : Bool := true

/-- `requiredRule` (src/rules/presence.ts): fails on empty values; runs on
empty values and stops the chain on failure. -/
def requiredRule : RuleHandler where
  name := "required"
  skipIfEmpty := false
  bailOnFailure := true
  validate := fun value _ _ field =>
    if isEmpty value then
      some { key := "validation.required", params := [("field", Value.vStr field)] }
    else none

/-- `nullableRule` (src/rules/presence.ts): a modifier that never fails;
the validator checks for its presence separately. -/
def nullableRule : RuleHandler where
  name := "nullable"
  skipIfEmpty := false
  bailOnFailure := false
  validate := fun _ _ _ _ => none

/-- `filledRule` (src/rules/presence.ts): absent values pass, present but
empty values fail. -/
def filledRule : RuleHandler where
  name := "filled"
  skipIfEmpty := false
  bailOnFailure := true
  validate := fun value _ _ field =>
    match value with
    | Value.vUndefined => none
    | _ =>
      if isEmpty value then
        some { key := "validation.filled", params := [("field", Value.vStr field)] }
      else none

/-- `presentRule` (src/rules/presence.ts): the field must exist (may be
empty). -/
def presentRule : RuleHandler where
  name := "present"
  skipIfEmpty := false
  bailOnFailure := true
  validate := fun value _ _ field =>
    match value with
    | Value.vUndefined => some { key := "validation.present", params := [("field", Value.vStr field)] }
    | _ => none

/-- `stringRule` (src/rules/type-checks.ts). -/
def stringRule : RuleHandler where
  name := "string"
  validate := fun value _ _ field =>
    match value with
    | Value.vStr _ => none
    | _ => some { key := "validation.string", params := [("field", Value.vStr field)] }

/-- `parseInt(s, 10)`: skip leading whitespace, take an optional sign and
the longest decimal-digit prefix; NaN (`none`) when there is no digit. -/
def jsParseInt (s : String) : Option Int :=
  let l := s.toList.dropWhile isWS
  let signAndRest : Int × List Char :=
    match l with
    | '-' :: rest => (-1, rest)
    | '+' :: rest => (1, rest)
    | rest => (1, rest)
  let digits := signAndRest.2.takeWhile Char.isDigit
  if digits.isEmpty then none
  else some (signAndRest.1 * (digitsVal digits : Int))

/-- `integerRule` (src/rules/type-checks.ts): a string passes when
`parseInt` round-trips through `toString` onto the trimmed input; a
number passes when `Number.isInteger` holds, which in the integer value
model is always (float inputs are outside the model). -/
def integerRule : RuleHandler where
  name := "integer"
  validate := fun value _ _ field =>
    let err : Option ValidationError :=
      some { key := "validation.integer", params := [("field", Value.vStr field)] }
    match value with
    | Value.vStr s =>
      match jsParseInt s with
      | some n => if toString n == trimWS s then none else err
      | none => err
    | Value.vNum _ => none
    | _ => err

/-- `booleanRule` (src/rules/type-checks.ts): booleans pass, as do the
boolean-like values `0`, `1`, `"0"`, `"1"`, `"true"`, `"false"`. -/
def booleanRule : RuleHandler where
  name := "boolean"
  validate := fun value _ _ field =>
    match value with
    | Value.vBool _ => none
    | _ =>
      let booleanLike : List Value :=
        [Value.vBool true, Value.vBool false, Value.vNum 0, Value.vNum 1,
         Value.vStr "0", Value.vStr "1", Value.vStr "true", Value.vStr "false"]
      if booleanLike.any (fun b => strictEq b value) then none
      else some { key := "validation.boolean", params := [("field", Value.vStr field)] }

/-- `arrayRule` (src/rules/type-checks.ts). -/
def arrayRule : RuleHandler where
  name := "array"
  validate := fun value _ _ field =>
    match value with
    | Value.vArr _ => none
    | _ => some { key := "validation.array", params := [("field", Value.vStr field)] }

/-- The numeric-string test `/^-?\d*\.?\d+$/` of `minRule`, implemented
over the character list. -/
def numericLiteralTest (s : String) : Bool :=
  let core : List Char → Bool := fun l =>
    let ds := l.takeWhile Char.isDigit
    let rest := l.drop ds.length
    match rest with
    | [] => !ds.isEmpty
    | c :: rest2 => c == '.' && !rest2.isEmpty && rest2.all Char.isDigit
  match s.toList with
  | '-' :: rest => core rest
  | l => core l

/-- `minRule` (src/rules/string.ts): numeric-looking strings compare
numerically, other strings by length, numbers by value, arrays by length.
Restricted to the integer value model: the `min` parameter is taken as a
number (a non-number parameter makes every JS comparison false, hence no
error), and a numeric-looking string with a decimal point cannot be
compared in the integer model — such inputs are outside the modelled
scope and no theorem exercises them. -/
def minRule : RuleHandler where
  name := "min"
  validate := fun value params _ field =>
    match params.headD Value.vUndefined with
    | Value.vNum minN =>
      match value with
      | Value.vStr s =>
        if numericLiteralTest (trimWS s) then
          match jsStringToNumber s with
          | some n =>
            if n < minN then
              some { key := "validation.min.numeric",
                     params := [("field", Value.vStr field), ("min", Value.vNum minN),
                                ("actual", Value.vNum n)] }
            else none
          | none => none
        else if (s.length : Int) < minN then
          some { key := "validation.min.string",
                 params := [("field", Value.vStr field), ("min", Value.vNum minN),
                            ("actual", Value.vNum (s.length : Int))] }
        else none
      | Value.vNum n =>
        if n < minN then
          some { key := "validation.min.numeric",
                 params := [("field", Value.vStr field), ("min", Value.vNum minN),
                            ("actual", Value.vNum n)] }
        else none
      | Value.vArr xs =>
        if (xs.length : Int) < minN then
          some { key := "validation.min.array",
                 params := [("field", Value.vStr field), ("min", Value.vNum minN),
                            ("actual", Value.vNum (xs.length : Int))] }
        else none
      | _ => none
    | _ => none

/-- A leaf rule registered with its name and default flags whose body is
outside the modelled scope (the spec treats the ~40 leaf rules as
external collaborators consumed through the handler interface; only the
name and the two control flags of these rules are relevant to any theorem
below). -/
def leafRule (n : String) : RuleHandler where
  name := n
  validate := fun _ _ _ _ => none

/-- The built-in registry contents (src/rules/index.ts), in registration
order.  `required`, `nullable`, `filled`, `present`, `string`, `integer`,
`boolean`, `array` and `min` carry their modelled bodies; the remaining
leaf rules are registered with their names and default flags only. -/
def builtInRules : List RuleHandler :=
  [requiredRule, nullableRule, filledRule, presentRule,
   stringRule, integerRule, leafRule "numeric", booleanRule, arrayRule,
   minRule, leafRule "max", leafRule "between", leafRule "regex",
   leafRule "not_regex", leafRule "alpha", leafRule "alpha_num",
   leafRule "alpha_dash", leafRule "lowercase", leafRule "uppercase",
   leafRule "starts_with", leafRule "ends_with", leafRule "contains",
   leafRule "gt", leafRule "gte", leafRule "lt", leafRule "lte",
   leafRule "distinct",
   leafRule "email", leafRule "url", leafRule "ip", leafRule "uuid",
   leafRule "json", leafRule "date", leafRule "date_format",
   leafRule "after", leafRule "before",
   leafRule "in", leafRule "not_in", leafRule "same",
   leafRule "different", leafRule "confirmed",
   leafRule "oib", leafRule "phone", leafRule "iban", leafRule "vat_eu"]

/-- `getRule` (src/rules/index.ts): registry lookup by name.  The
registry map is populated from `builtInRules` keyed by handler name; the
names are pairwise distinct, so first-match lookup coincides with the
map. -/
def getRule (name : String) : Option RuleHandler :=
  builtInRules.find? (fun r => r.name == name)

/-- Construction-time parser failures (src/errors.ts): the two exception
classes the parser throws.  `UnknownRuleException` carries the name;
`InvalidRuleNameException` carries the name and a reason, and is thrown
both for malformed rule entries and for out-of-pattern names. -/
inductive ParseError where
  | unknownRule (ruleName : String)
  | invalidRuleName (ruleName : String) (reason : String)

/-- A parsed simple/parameterized rule bound to its handler
(src/types.ts `ParsedRule`). -/
structure ParsedRule where
  name : String
  params : List Value
  handler : RuleHandler

/-- A parsed rule item (src/types.ts `ParsedRuleItem`): a resolved simple
rule or a conditional whose branches hold resolved simple rules. -/
inductive ParsedRuleItem where
  | simple (rule : ParsedRule)
  | conditional (condition : Condition) (thenRules : List ParsedRule)
      (elseRules : Option (List ParsedRule))

/-- `isConditionalRule` (src/parser.ts). -/
def isConditionalRule : ParsedRuleItem → Bool
  | ParsedRuleItem.simple _ => false
  | ParsedRuleItem.conditional _ _ _ => true

/-- A raw (authored) rule (src/types.ts `Rule`), decoded by runtime
shape: a bare string; an array headed by a rule name followed by
parameter values; an array headed by the literal tag `when` with a
condition, a then-list and an optional else-list; or any other value
(`rBad`), which the static type forbids but the parser guards against at
runtime. -/
inductive RawRule where
  | rName (name : String)
  | rParam (name : String) (params : List Value)
  | rWhen (condition : Condition) (thenRules : List RawRule)
      (elseRules : Option (List RawRule))
  | rBad (value : Value)

/-- `RULE_NAME_MAX_LENGTH` / `MAX_LENGTH` (src/types.ts, src/parser.ts). -/
def RULE_NAME_MAX_LENGTH : Nat := 1024

/-- The name pattern `/^[a-z][a-z0-9_]*$/`. -/
def nameMatches (s : String) : Bool :=
  match s.toList with
  | [] => false
  | c :: cs =>
    (('a' ≤ c) && (c ≤ 'z')) &&
      cs.all (fun d => (('a' ≤ d) && (d ≤ 'z')) || d.isDigit || d == '_')

/-- `validateRuleName` (src/parser.ts), returning the thrown exception
instead of throwing: over-length names and out-of-pattern names both fail
with `InvalidRuleNameException`. -/
def validateRuleName (name : String) : Option ParseError :=
  if name.length > RULE_NAME_MAX_LENGTH then
    some (ParseError.invalidRuleName name "Rule name exceeds maximum length of 1024")
  else if !nameMatches name then
    some (ParseError.invalidRuleName name
      "Rule name must start with a lowercase letter and contain only lowercase letters, numbers, and underscores")
  else none

/-- Element printing inside `Array.prototype.join` (`String([x, ...])`):
null and undefined print as the empty string; nested arrays would print
by their own join and are approximated by the empty string (no theorem
depends on them). -/
def jsToStringElem : Value → String
  | Value.vNull => ""
  | Value.vUndefined => ""
  | Value.vBool b => if b then "true" else "false"
  | Value.vNum n => toString n
  | Value.vStr s => s
  | Value.vArr _ => ""
  | Value.vObj _ => "[object Object]"

/-- Comma-join. -/
def joinComma : List String → String
  | [] => ""
  | [s] => s
  | s :: rest => s ++ "," ++ joinComma rest

/-- `String(v)` for the values a malformed rule entry can be. -/
def jsToString : Value → String
  | Value.vNull => "null"
  | Value.vUndefined => "undefined"
  | Value.vBool b => if b then "true" else "false"
  | Value.vNum n => toString n
  | Value.vStr s => s
  | Value.vArr xs => joinComma (xs.map jsToStringElem)
  | Value.vObj _ => "[object Object]"

/-- `parseSimpleRule` (src/parser.ts): a bare string is a simple rule; an
array destructures into `[name, ...params]` — in particular a nested
`['when', condition, thenRules, elseRules?]` array reaching this function
destructures to the name `"when"` (its remaining elements become the
parameters, which are irrelevant because the lookup of `"when"` fails
first); any other value throws `InvalidRuleNameException` with reason
`Invalid rule format`.  Then the name is validated and resolved in the
registry; an absent name throws `UnknownRuleException`. -/
def parseSimpleRule (rule : RawRule) : Except ParseError ParsedRule :=
  let resolve : String → List Value → Except ParseError ParsedRule := fun name params =>
    match validateRuleName name with
    | some e => Except.error e
    | none =>
      match getRule name with
      | some handler => Except.ok { name := name, params := params, handler := handler }
      | none => Except.error (ParseError.unknownRule name)
  match rule with
  | RawRule.rName name => resolve name []
  | RawRule.rParam name params => resolve name params
  | RawRule.rWhen _ _ _ => resolve "when" []
  | RawRule.rBad v => Except.error (ParseError.invalidRuleName (jsToString v) "Invalid rule format")

/-- `Array.prototype.map` under exceptions: elements are processed left
to right and the first thrown error propagates. -/
def mapExcept {α β ε : Type} (f : α → Except ε β) : List α → Except ε (List β)
  | [] => Except.ok []
  | x :: xs =>
    match f x with
    | Except.error e => Except.error e
    | Except.ok y =>
      match mapExcept f xs with
      | Except.error e => Except.error e
      | Except.ok ys => Except.ok (y :: ys)

/-- `parseRule` (src/parser.ts): an array tagged `when` parses as a
conditional (its then-list first, then the optional else-list, each
element through `parseSimpleRule`); everything else parses as a simple
rule. -/
def parseRule (rule : RawRule) : Except ParseError ParsedRuleItem :=
  match rule with
  | RawRule.rWhen condition thenRules elseRules =>
    (match mapExcept parseSimpleRule thenRules with
     | Except.error e => Except.error e
     | Except.ok ts =>
       match elseRules with
       | none => Except.ok (ParsedRuleItem.conditional condition ts none)
       | some es =>
         match mapExcept parseSimpleRule es with
         | Except.error e => Except.error e
         | Except.ok es2 => Except.ok (ParsedRuleItem.conditional condition ts (some es2)))
  | r => (parseSimpleRule r).map ParsedRuleItem.simple

/-- `parseFieldRules` (src/parser.ts). -/
def parseFieldRules (rules : List RawRule) : Except ParseError (List ParsedRuleItem) :=
  mapExcept parseRule rules

/-- `parseRules` (src/parser.ts): iterate `Object.entries` of the rule
map (own-property enumeration order) and parse each field's list; the
resulting `Map` preserves that insertion order, modelled by the result
list. -/
def parseRules (rules : List (String × List RawRule)) :
    Except ParseError (List (String × List ParsedRuleItem)) :=
  mapExcept
    (fun fr =>
      match parseFieldRules fr.2 with
      | Except.error e => Except.error e
      | Except.ok ps => Except.ok (fr.1, ps))
    (jsKeyOrder rules)

/-- `hasNullableRule` (src/parser.ts): some item has a `name` property
equal to `nullable` (conditional items have no `name` property). -/
def hasNullableRule (items : List ParsedRuleItem) : Bool :=
  items.any (fun item =>
    match item with
    | ParsedRuleItem.simple r => r.name == "nullable"
    | ParsedRuleItem.conditional _ _ _ => false)

/-- `ValidationResult` (src/types.ts): the flag, the error map (a JS
object keyed by concrete field path, modelled as an association list in
property-creation order) and the validated tree. -/
structure ValidationResult where
  valid : Bool
  errors : List (String × List ValidationError)
  validated : Value

/-- `validateSimpleRule` (src/validator.ts): skip when the handler allows
skipping on empty values and the value is empty; otherwise invoke the
handler. -/
def validateSimpleRule (field : String) (value : Value) (allData : Value)
    (rule : ParsedRule) : Option ValidationError :=
  if rule.handler.skipIfEmpty && isEmpty value then none
  else rule.handler.validate value rule.params allData field

/-- The branch loop of `validateConditionalRule` (src/validator.ts):
execute the selected branch in order; a failing rule whose handler bails
stops the branch list. -/
def runBranchRules (field : String) (value : Value) (allData : Value) :
    List ParsedRule → List ValidationError
  | [] => []
  | r :: rs =>
    match validateSimpleRule field value allData r with
    | some e =>
      if r.handler.bailOnFailure then [e]
      else e :: runBranchRules field value allData rs
    | none => runBranchRules field value allData rs

/-- `validateConditionalRule` (src/validator.ts): evaluate the condition;
true selects the then-branch, false the else-branch when present (no
rules run when it is absent). -/
def validateConditionalRule (field : String) (value : Value) (allData : Value)
    (condition : Condition) (thenRules : List ParsedRule)
    (elseRules : Option (List ParsedRule)) : List ValidationError :=
  let conditionMet := evaluateCondition condition value allData field
  let rulesToApply := if conditionMet then some thenRules else elseRules
  match rulesToApply with
  | some rs => runBranchRules field value allData rs
  | none => []

/-- The rule-item loop of `validateField` (src/validator.ts): a
conditional item contributes its branch errors and execution continues
with the next top-level item (a bail inside the branch stops only the
branch list); a simple item that fails with a bailing handler stops the
top-level list. -/
def validateFieldLoop (field : String) (value : Value) (allData : Value) :
    List ParsedRuleItem → List ValidationError
  | [] => []
  | ParsedRuleItem.conditional condition thenRules elseRules :: rest =>
    validateConditionalRule field value allData condition thenRules elseRules ++
      validateFieldLoop field value allData rest
  | ParsedRuleItem.simple r :: rest =>
    match validateSimpleRule field value allData r with
    | some e =>
      if r.handler.bailOnFailure then [e]
      else e :: validateFieldLoop field value allData rest
    | none => validateFieldLoop field value allData rest

/-- `validateField` (src/validator.ts): when the list contains the bare
`nullable` modifier and the value is empty, no rules run; otherwise the
item loop runs. -/
def validateField (field : String) (value : Value) (allData : Value)
    (rules : List ParsedRuleItem) : List ValidationError :=
  if hasNullableRule rules && isEmpty value then []
  else validateFieldLoop field value allData rules

/-- The per-concrete-field step of `validate` (src/validator.ts): a field
that produced errors records them in the error map under its concrete
path; a field with no errors writes its value into the validated tree at
its concrete path. -/
def processPair (rules : List ParsedRuleItem) (data : Value)
    (st : List (String × List ValidationError) × Value) (pair : String × Value) :
    List (String × List ValidationError) × Value :=
  let fieldErrors := validateField pair.1 pair.2 data rules
  if !fieldErrors.isEmpty then (assocSet st.1 pair.1 fieldErrors, st.2)
  else (st.1, set st.2 pair.1 pair.2)

/-- The per-entry step of `validate` (src/validator.ts): a wildcard
pattern expands against the record to its (possibly empty) list of
concrete pairs, a plain pattern addresses the single pair
`(pattern, get(data, pattern))`. -/
def validateStep (data : Value) (st : List (String × List ValidationError) × Value)
    (entry : String × List ParsedRuleItem) :
    List (String × List ValidationError) × Value :=
  if isWildcardPattern entry.1 then
    (expandWildcards entry.1 data).foldl (processPair entry.2 data) st
  else processPair entry.2 data st (entry.1, get data entry.1)

/-- `validate` (src/validator.ts): walk the parsed entries in order over
fresh `errors`/`validated` accumulators; `valid` holds exactly when the
error map stayed empty, and the validated tree is replaced by a fresh
empty object when it did not. -/
def validate (parsedRules : List (String × List ParsedRuleItem)) (data : Value) :
    ValidationResult :=
  let st := parsedRules.foldl (validateStep data) ([], Value.vObj [])
  let valid := st.1.isEmpty
  { valid := valid, errors := st.1, validated := if valid then st.2 else Value.vObj [] }

/-- The `Validator` class (src/validator.ts): it stores the raw rules and
the parsed rule set built once at construction; nothing else. -/
structure Validator where
  rules : List (String × List RawRule)
  parsedRules : List (String × List ParsedRuleItem)

/-- The `Validator` constructor: parse the rules once; a parse failure
propagates and no `Validator` value is produced. -/
def mkValidator (rules : List (String × List RawRule)) : Except ParseError Validator :=
  match parseRules rules with
  | Except.error e => Except.error e
  | Except.ok parsed => Except.ok { rules := rules, parsedRules := parsed }

/-- The concrete pairs addressed by one parsed entry (step 1a/1b of the
spec's validate algorithm). -/
def fieldPairs (data : Value) (entry : String × List ParsedRuleItem) :
    List (String × Value) :=
  if isWildcardPattern entry.1 then expandWildcards entry.1 data
  else [(entry.1, get data entry.1)]

/-- All concrete `(path, value)` pairs addressed by a parsed rule set
against a record, in processing order. -/
def addressedPairs (parsedRules : List (String × List ParsedRuleItem)) (data : Value) :
    List (String × Value) :=
  (parsedRules.map (fieldPairs data)).flatten

/-- The tree obtained by writing every addressed field's value at its
concrete path, in processing order, into a fresh empty object. -/
def buildValidated (parsedRules : List (String × List ParsedRuleItem)) (data : Value) :
    Value :=
  (addressedPairs parsedRules data).foldl (fun t pv => set t pv.1 pv.2) (Value.vObj [])

/-- Heap-level values, for the reference semantics of the engine: scalars
are carried inline, arrays and objects by reference into a store.  This
layer makes container identity observable: `get` hands out references,
`set(validated, path, value)` stores the reference it was given, and a
later `set` walking through the validated tree reaches whatever container
that reference denotes — including a container belonging to the input
record. -/
inductive HVal where
  | hNull
  | hUndefined
  | hBool (b : Bool)
  | hNum (n : Int)
  | hStr (s : String)
  | hRef (addr : Nat)

/-- A heap container: an array (its elements, in order, plus the named
non-index properties JS lets one store on an array) or a plain object
with properties in creation order. -/
inductive HObj where
  | harr (elems : List HVal) (named : List (String × HVal))
  | hobj (props : List (String × HVal))

/-- The store: containers addressed by position; allocation appends. -/
abbrev Store := List HObj

/-- Dereference an address (valid references never dangle; the default is
irrelevant). -/
def storeGet (st : Store) (a : Nat) : HObj := st.getD a (HObj.hobj [])

/-- Replace the container at an address. -/
def storeSet (st : Store) (a : Nat) (o : HObj) : Store := st.set a o

/-- Member read `container[k]`: objects by property lookup; arrays by
canonical index key within bounds, else by named property; absent reads
as `undefined`. -/
def hObjIndex : HObj → String → HVal
  | HObj.hobj props, k =>
    match assocGet props k with
    | some v => v
    | none => HVal.hUndefined
  | HObj.harr elems named, k =>
    if isArrayIndex k then elems.getD (idxKeyVal k) HVal.hUndefined
    else
      match assocGet named k with
      | some v => v
      | none => HVal.hUndefined

/-- Member write `container[k] = v`: property assignment on objects; on
arrays a canonical index within bounds replaces the element, the index at
the length appends, a larger index pads with holes (stored as
`undefined`), and a non-index key becomes a named property on the array,
as in JS. -/
def hObjAssign : HObj → String → HVal → HObj
  | HObj.hobj props, k, v => HObj.hobj (assocSet props k v)
  | HObj.harr elems named, k, v =>
    if isArrayIndex k then
      let n := idxKeyVal k
      if n < elems.length then HObj.harr (elems.set n v) named
      else HObj.harr (elems ++ List.replicate (n - elems.length) HVal.hUndefined ++ [v]) named
    else HObj.harr elems (assocSet named k v)

/-- The per-segment walk of `get` (src/utils/get.ts) over the heap:
`null`, `undefined` and every non-object stop the walk with `undefined`;
a reference indexes its container and continues.  The returned value is
whatever the record holds there — for containers, a reference. -/
def hGetLoop (st : Store) : List String → HVal → HVal
  | [], current => current
  | part :: rest, current =>
    match current with
    | HVal.hRef a => hGetLoop st rest (hObjIndex (storeGet st a) part)
    | _ => HVal.hUndefined

/-- `get(data, path)` over the heap; the empty path is falsy and yields
`undefined`. -/
def hGet (st : Store) (root : HVal) (path : String) : HVal :=
  if path == "" then HVal.hUndefined
  else hGetLoop st (splitDots path) root

/-- The walk of `set` (src/utils/get.ts) over the heap, mutating the
store.  At each intermediate segment the source keeps the existing child
exactly when `part in current`, `typeof current[part] === 'object'` and
`current[part] !== null` all hold, i.e. exactly when the child is a
reference — and then walks *into that container*, wherever it lives: if
the child is aliased to a subtree of the input record, the final
assignment lands in the input record.  Otherwise it allocates a fresh
array (when the next segment is all digits) or object, links it, and
descends. -/
def hSetLoop (st : Store) (current : Nat) : List String → HVal → Store
  | [], _ => st
  | [last], v => storeSet st current (hObjAssign (storeGet st current) last v)
  | part :: rest, v =>
    let c := storeGet st current
    match hObjIndex c part with
    | HVal.hRef a => hSetLoop st a rest v
    | _ =>
      let newObj := if isDigitsNonempty (rest.headD "") then HObj.harr [] [] else HObj.hobj []
      let addr := st.length
      let st2 := storeSet (st ++ [newObj]) current (hObjAssign c part (HVal.hRef addr))
      hSetLoop st2 addr rest v

/-- `set(data, path, value)` over the heap; the empty path is falsy and a
no-op. -/
def hSet (st : Store) (root : Nat) (path : String) (v : HVal) : Store :=
  if path == "" then st else hSetLoop st root (splitDots path) v

/-- Materialize the value tree a heap value currently denotes (the view a
pure reader of the structure sees).  Fuel bounds the recursion; the
engine's inputs are acyclic trees (cyclic data is an explicit non-goal of
the design), and on an acyclic heap a reference chain is no longer than
the container count, so `heapFuel` below never exhausts. -/
def materialize (st : Store) : Nat → HVal → Value
  | 0, _ => Value.vUndefined
  | Nat.succ fuel, v =>
    let deep := materialize st fuel
    match v with
    | HVal.hNull => Value.vNull
    | HVal.hUndefined => Value.vUndefined
    | HVal.hBool b => Value.vBool b
    | HVal.hNum n => Value.vNum n
    | HVal.hStr s => Value.vStr s
    | HVal.hRef a =>
      match storeGet st a with
      | HObj.harr elems _ => Value.vArr (elems.map deep)
      | HObj.hobj props => Value.vObj (props.map (fun p => (p.1, deep p.2)))

/-- Sufficient fuel for any acyclic heap. -/
def heapFuel (st : Store) : Nat := st.length + 1

/-- The value tree a heap value denotes in the current store. -/
def readBack (st : Store) (v : HVal) : Value := materialize st (heapFuel st) v

/-- `isEmpty` over the heap (arrays dereferenced for their length). -/
def hIsEmpty (st : Store) : HVal → Bool
  | HVal.hNull => true
  | HVal.hUndefined => true
  | HVal.hStr s => trimWS s == ""
  | HVal.hRef a =>
    match storeGet st a with
    | HObj.harr elems _ => elems.isEmpty
    | HObj.hobj _ => false
  | HVal.hBool _ => false
  | HVal.hNum _ => false

/-- `expandRecursive` (src/wildcard.ts) over the heap: identical ordered
walk, but the accumulated pairs carry the references the record holds. -/
def hExpandRecursive (st : Store) : List String → HVal → String →
    List (String × HVal) → List (String × HVal)
  | [], current, path, result => assocSet result (path.drop 1) current
  | part :: rest, current, path, result =>
    let recur := hExpandRecursive st rest
    if part == "*" then
      match current with
      | HVal.hRef a =>
        match storeGet st a with
        | HObj.harr elems _ =>
          elems.enum.foldl (fun acc p => recur p.2 (path ++ "." ++ toString p.1) acc) result
        | HObj.hobj props =>
          (jsKeyOrder props).foldl (fun acc p => recur p.2 (path ++ "." ++ p.1) acc) result
      | _ => result
    else
      recur
        (match current with
         | HVal.hRef a => hObjIndex (storeGet st a) part
         | _ => HVal.hUndefined)
        (path ++ "." ++ part) result

/-- `expandWildcards(pattern, data)` over the heap. -/
def hExpandWildcards (st : Store) (pattern : String) (root : HVal) :
    List (String × HVal) :=
  if !isWildcardPattern pattern then [(pattern, hGet st root pattern)]
  else hExpandRecursive st (splitDots pattern) root "" []

/-- `typeof` of a heap value (references are arrays or objects). -/
def hTypeof : HVal → String
  | HVal.hUndefined => "undefined"
  | HVal.hBool _ => "boolean"
  | HVal.hNum _ => "number"
  | HVal.hStr _ => "string"
  | HVal.hNull => "object"
  | HVal.hRef _ => "object"

/-- `evaluateSelfCondition` over the heap; value inspections (`@value`)
read the tree the reference currently denotes, and strict equality of a
record container against a spec literal is always false (distinct
references), as in the value-level `strictEq`. -/
def hEvaluateSelfCondition (st : Store) (c : Condition) (value : HVal) : Bool :=
  match c with
  | Condition.sEmpty => hIsEmpty st value
  | Condition.sFilled => !hIsEmpty st value
  | Condition.sLength op expected =>
    let len : Int :=
      match value with
      | HVal.hStr s => (s.length : Int)
      | HVal.hRef a =>
        match storeGet st a with
        | HObj.harr elems _ => (elems.length : Int)
        | HObj.hobj _ => 0
      | _ => 0
    compare (Value.vNum len) op (Value.vNum expected)
  | Condition.sValue op expected => compare (readBack st value) op expected
  | Condition.sType expected =>
    if expected == "array" then
      match value with
      | HVal.hRef a =>
        match storeGet st a with
        | HObj.harr _ _ => true
        | HObj.hobj _ => false
      | _ => false
    else hTypeof value == expected
  | _ => false

/-- `evaluateFieldCondition` over the heap: the other field is resolved
live against the current store. -/
def hEvaluateFieldCondition (st : Store) (c : Condition) (root : HVal) : Bool :=
  match c with
  | Condition.fFilled field => !hIsEmpty st (hGet st root field)
  | Condition.fEmpty field => hIsEmpty st (hGet st root field)
  | Condition.fIn field expected =>
    expected.any (fun e => strictEq e (readBack st (hGet st root field)))
  | Condition.fNotIn field expected =>
    !(expected.any (fun e => strictEq e (readBack st (hGet st root field))))
  | Condition.fCond field op expected =>
    compare (readBack st (hGet st root field)) op expected
  | _ => false

mutual
/-- `evaluateCondition` over the heap. -/
def hEvaluateCondition (st : Store) (c : Condition) (currentValue : HVal)
    (root : HVal) (currentField : String) : Bool :=
  match c with
  | Condition.cAnd cs => hEvalEvery st cs currentValue root currentField
  | Condition.cOr cs => hEvalSome st cs currentValue root currentField
  | Condition.sEmpty | Condition.sFilled | Condition.sLength _ _
  | Condition.sValue _ _ | Condition.sType _ => hEvaluateSelfCondition st c currentValue
  | _ => hEvaluateFieldCondition st c root

/-- Short-circuit `and` over the heap. -/
def hEvalEvery (st : Store) (cs : ConditionList) (v : HVal) (root : HVal)
    (f : String) : Bool :=
  match cs with
  | ConditionList.nil => true
  | ConditionList.cons c rest =>
    hEvaluateCondition st c v root f && hEvalEvery st rest v root f

/-- Short-circuit `or` over the heap. -/
def hEvalSome (st : Store) (cs : ConditionList) (v : HVal) (root : HVal)
    (f : String) : Bool :=
  match cs with
  | ConditionList.nil => false
  | ConditionList.cons c rest =>
    hEvaluateCondition st c v root f || hEvalSome st rest v root f
end

/-- `validateSimpleRule` over the heap: the skip check inspects the heap
value; the (pure, read-only) handler receives the value tree the
reference currently denotes. -/
def hValidateSimpleRule (st : Store) (field : String) (value : HVal) (root : HVal)
    (rule : ParsedRule) : Option ValidationError :=
  if rule.handler.skipIfEmpty && hIsEmpty st value then none
  else rule.handler.validate (readBack st value) rule.params (readBack st root) field

/-- The branch loop of `validateConditionalRule` over the heap. -/
def hRunBranchRules (st : Store) (field : String) (value : HVal) (root : HVal) :
    List ParsedRule → List ValidationError
  | [] => []
  | r :: rs =>
    match hValidateSimpleRule st field value root r with
    | some e =>
      if r.handler.bailOnFailure then [e]
      else e :: hRunBranchRules st field value root rs
    | none => hRunBranchRules st field value root rs

/-- `validateConditionalRule` over the heap. -/
def hValidateConditionalRule (st : Store) (field : String) (value : HVal) (root : HVal)
    (condition : Condition) (thenRules : List ParsedRule)
    (elseRules : Option (List ParsedRule)) : List ValidationError :=
  let conditionMet := hEvaluateCondition st condition value root field
  let rulesToApply := if conditionMet then some thenRules else elseRules
  match rulesToApply with
  | some rs => hRunBranchRules st field value root rs
  | none => []

/-- The rule-item loop of `validateField` over the heap. -/
def hValidateFieldLoop (st : Store) (field : String) (value : HVal) (root : HVal) :
    List ParsedRuleItem → List ValidationError
  | [] => []
  | ParsedRuleItem.conditional condition thenRules elseRules :: rest =>
    hValidateConditionalRule st field value root condition thenRules elseRules ++
      hValidateFieldLoop st field value root rest
  | ParsedRuleItem.simple r :: rest =>
    match hValidateSimpleRule st field value root r with
    | some e =>
      if r.handler.bailOnFailure then [e]
      else e :: hValidateFieldLoop st field value root rest
    | none => hValidateFieldLoop st field value root rest

/-- `validateField` over the heap (reads only; the store is untouched). -/
def hValidateField (st : Store) (field : String) (value : HVal) (root : HVal)
    (rules : List ParsedRuleItem) : List ValidationError :=
  if hasNullableRule rules && hIsEmpty st value then []
  else hValidateFieldLoop st field value root rules

/-- `ValidationResult` at the heap level: the validated tree is returned
as a reference into the final store. -/
structure HResult where
  valid : Bool
  errors : List (String × List ValidationError)
  validated : HVal

/-- The per-concrete-field step of `validate` over the heap: an erroring
field records its errors; a passing field performs
`set(validated, path, value)`, which writes through whatever containers
the validated tree holds at that path — including ones aliased to the
input record. -/
def hProcessPair (rules : List ParsedRuleItem) (rootAddr vAddr : Nat)
    (st : List (String × List ValidationError) × Store) (pair : String × HVal) :
    List (String × List ValidationError) × Store :=
  let fieldErrors := hValidateField st.2 pair.1 pair.2 (HVal.hRef rootAddr) rules
  if !fieldErrors.isEmpty then (assocSet st.1 pair.1 fieldErrors, st.2)
  else (st.1, hSet st.2 vAddr pair.1 pair.2)

/-- The per-entry step of `validate` over the heap: pattern expansion and
the single-pair read use the store as it stands when the entry is
reached (the source reads the record live inside its loop). -/
def hValidateStep (rootAddr vAddr : Nat)
    (st : List (String × List ValidationError) × Store)
    (entry : String × List ParsedRuleItem) :
    List (String × List ValidationError) × Store :=
  if isWildcardPattern entry.1 then
    (hExpandWildcards st.2 entry.1 (HVal.hRef rootAddr)).foldl
      (hProcessPair entry.2 rootAddr vAddr) st
  else
    hProcessPair entry.2 rootAddr vAddr st
      (entry.1, hGet st.2 (HVal.hRef rootAddr) entry.1)

/-- `validate` (src/validator.ts) over the heap: allocate the fresh
`validated` object, walk the parsed entries threading the store, and
return the result together with the post-call store — the input record's
containers live in that store and can come back changed. A failing run
returns a freshly allocated empty object as `validated`. -/
def hValidate (prs : List (String × List ParsedRuleItem)) (st0 : Store)
    (rootAddr : Nat) : HResult × Store :=
  let vAddr := st0.length
  let stInit := st0 ++ [HObj.hobj []]
  let st := prs.foldl (hValidateStep rootAddr vAddr) ([], stInit)
  let valid := st.1.isEmpty
  if valid then ({ valid := true, errors := st.1, validated := HVal.hRef vAddr }, st.2)
  else ({ valid := false, errors := st.1, validated := HVal.hRef st.2.length },
        st.2 ++ [HObj.hobj []])

/-- The heap holding the record `{a: []}`: the root object at address 0,
the (initially empty) array `a` at address 1. -/
def aliasDemoStore : Store :=
  [HObj.hobj [("a", HVal.hRef 1)], HObj.harr [] []]

/-- The parsed form of the rule specification
`{a: ['nullable'], 'a.0': ['nullable']}`. -/
def aliasDemoRules : List (String × List ParsedRuleItem) :=
  [("a", [ParsedRuleItem.simple ⟨"nullable", [], nullableRule⟩]),
   ("a.0", [ParsedRuleItem.simple ⟨"nullable", [], nullableRule⟩])]

/-- The parsed form of the rule specification
`{x: [['when', ['a', 'empty'], ['required']]], a: ['nullable'],
'a.0': ['nullable']}`. -/
def idemDemoRules : List (String × List ParsedRuleItem) :=
  [("x", [ParsedRuleItem.conditional (Condition.fEmpty "a")
            [⟨"required", [], requiredRule⟩] none]),
   ("a", [ParsedRuleItem.simple ⟨"nullable", [], nullableRule⟩]),
   ("a.0", [ParsedRuleItem.simple ⟨"nullable", [], nullableRule⟩])]

/-- Whether a raw rule is a conditional (`['when', ...]`) item. -/
def isWhenItem : RawRule → Bool
  | RawRule.rWhen _ _ _ => true
  | _ => false

/-- Whether a raw rule is a conditional one of whose branches contains a
conditional item (the nesting the parser does not support). -/
def hasNestedWhen : RawRule → Bool
  | RawRule.rWhen _ thenRules elseRules =>
    thenRules.any isWhenItem || (elseRules.getD []).any isWhenItem
  | _ => false

/-- The parsed form of the rule specification
`{field: ['required', 'string', ['min', 5]]}`. -/
def bailDemoRules : List (String × List ParsedRuleItem) :=
  [("field", [ParsedRuleItem.simple ⟨"required", [], requiredRule⟩,
              ParsedRuleItem.simple ⟨"string", [], stringRule⟩,
              ParsedRuleItem.simple ⟨"min", [Value.vNum 5], minRule⟩])]

/-- The parsed form of the rule specification
`{field: ['nullable', 'integer']}`. -/
def nullableDemoRules : List (String × List ParsedRuleItem) :=
  [("field", [ParsedRuleItem.simple ⟨"nullable", [], nullableRule⟩,
              ParsedRuleItem.simple ⟨"integer", [], integerRule⟩])]

/-! ## Helper lemmas -/

theorem assocSet_ne_nil {α : Type} (l : List (String × α)) (k : String) (v : α) :
    assocSet l k v ≠ [] := by
  cases l with
  | nil => simp [assocSet]
  | cons p ps =>
    simp only [assocSet]
    split <;> simp

theorem foldl_processPair_char (rules : List ParsedRuleItem) (data : Value)
    (pairs : List (String × Value)) (e0 : List (String × List ValidationError)) (v0 : Value)
    (h : (pairs.foldl (processPair rules data) (e0, v0)).1 = []) :
    e0 = [] ∧
      (pairs.foldl (processPair rules data) (e0, v0)).2 =
        pairs.foldl (fun t pv => set t pv.1 pv.2) v0 := by
  induction pairs generalizing e0 v0 with
  | nil => exact ⟨h, rfl⟩
  | cons p ps ih =>
    simp only [List.foldl_cons] at h ⊢
    by_cases hfe : (validateField p.1 p.2 data rules).isEmpty
    · have hstep : processPair rules data (e0, v0) p = (e0, set v0 p.1 p.2) := by
        simp [processPair, hfe]
      rw [hstep] at h ⊢
      exact ih e0 (set v0 p.1 p.2) h
    · have hstep : processPair rules data (e0, v0) p =
          (assocSet e0 p.1 (validateField p.1 p.2 data rules), v0) := by
        simp [processPair, hfe]
      rw [hstep] at h
      have := (ih _ _ h).1
      exact absurd this (assocSet_ne_nil _ _ _)

theorem validateStep_eq_foldl (data : Value)
    (st : List (String × List ValidationError) × Value)
    (entry : String × List ParsedRuleItem) :
    validateStep data st entry = (fieldPairs data entry).foldl (processPair entry.2 data) st := by
  unfold validateStep fieldPairs
  split <;> simp

theorem addressedPairs_cons (en : String × List ParsedRuleItem)
    (ens : List (String × List ParsedRuleItem)) (data : Value) :
    addressedPairs (en :: ens) data = fieldPairs data en ++ addressedPairs ens data := by
  simp [addressedPairs]

theorem foldl_validateStep_char (data : Value)
    (entries : List (String × List ParsedRuleItem))
    (e0 : List (String × List ValidationError)) (v0 : Value)
    (h : (entries.foldl (validateStep data) (e0, v0)).1 = []) :
    e0 = [] ∧
      (entries.foldl (validateStep data) (e0, v0)).2 =
        (addressedPairs entries data).foldl (fun t pv => set t pv.1 pv.2) v0 := by
  induction entries generalizing e0 v0 with
  | nil => exact ⟨h, by simp [addressedPairs]⟩
  | cons en ens ih =>
    simp only [List.foldl_cons] at h ⊢
    rw [validateStep_eq_foldl] at h ⊢
    have hmid :
        (fieldPairs data en).foldl (processPair en.2 data) (e0, v0) =
          (((fieldPairs data en).foldl (processPair en.2 data) (e0, v0)).1,
           ((fieldPairs data en).foldl (processPair en.2 data) (e0, v0)).2) := rfl
    rw [hmid] at h ⊢
    have hrest := ih _ _ h
    have hfirst := foldl_processPair_char en.2 data (fieldPairs data en) e0 v0 hrest.1
    refine ⟨hfirst.1, ?_⟩
    rw [hrest.2, hfirst.2, addressedPairs_cons, List.foldl_append]

theorem validate_eq (prs : List (String × List ParsedRuleItem)) (data : Value) :
    validate prs data =
      { valid := (prs.foldl (validateStep data) ([], Value.vObj [])).1.isEmpty,
        errors := (prs.foldl (validateStep data) ([], Value.vObj [])).1,
        validated := if (prs.foldl (validateStep data) ([], Value.vObj [])).1.isEmpty
          then (prs.foldl (validateStep data) ([], Value.vObj [])).2
          else Value.vObj [] } := rfl

theorem valid_iff_errors_nil (prs : List (String × List ParsedRuleItem)) (data : Value) :
    (validate prs data).valid = true ↔ (validate prs data).errors = [] := by
  rw [validate_eq]
  simp [List.isEmpty_iff]

theorem validated_of_invalid (prs : List (String × List ParsedRuleItem)) (data : Value)
    (h : (validate prs data).valid = false) :
    (validate prs data).validated = Value.vObj [] := by
  rw [validate_eq] at h ⊢
  simp only at h
  simp [h]

theorem validated_of_valid (prs : List (String × List ParsedRuleItem)) (data : Value)
    (h : (validate prs data).valid = true) :
    (validate prs data).validated = buildValidated prs data := by
  rw [validate_eq] at h ⊢
  simp only at h
  have hnil : (prs.foldl (validateStep data) ([], Value.vObj [])).1 = [] := by
    simpa [List.isEmpty_iff] using h
  have hmid :
      prs.foldl (validateStep data) ([], Value.vObj []) =
        ((prs.foldl (validateStep data) ([], Value.vObj [])).1,
         (prs.foldl (validateStep data) ([], Value.vObj [])).2) := rfl
  rw [hmid] at hnil
  have hchar := foldl_validateStep_char data prs [] (Value.vObj []) hnil
  simp only [h, if_true]
  simpa [buildValidated] using hchar.2

/-! ## C1, C8, C9 -/

/-- C1: for every rule set and input record, `validate` returns a result
whose `valid` flag is true exactly when the error map is empty; the
`validated` tree is the empty object whenever some field produced an
error, and when no field produced an error it is exactly the tree
obtained by writing every addressed field's value at its concrete
(wildcard-expanded) path, in processing order, into a fresh empty
object. -/
theorem validate_valid_errors_validated
    (prs : List (String × List ParsedRuleItem)) (data : Value) :
    ((validate prs data).valid = true ↔ (validate prs data).errors = []) ∧
    ((validate prs data).valid = false → (validate prs data).validated = Value.vObj []) ∧
    ((validate prs data).valid = true → (validate prs data).validated = buildValidated prs data) :=
  ⟨valid_iff_errors_nil prs data, validated_of_invalid prs data, validated_of_valid prs data⟩

/-- C1 witness: on a concrete rule set with a wildcard pattern and a
passing record, the success branch of the theorem applies and the
validated tree is the set-built tree. -/
theorem validate_valid_errors_validated_witness :
    (validate
        [("tags.*", [ParsedRuleItem.simple ⟨"string", [], stringRule⟩]),
         ("name", [ParsedRuleItem.simple ⟨"required", [], requiredRule⟩])]
        (Value.vObj [("tags", Value.vArr [Value.vStr "a", Value.vStr "b"]),
                     ("name", Value.vStr "bob")])).validated =
      buildValidated
        [("tags.*", [ParsedRuleItem.simple ⟨"string", [], stringRule⟩]),
         ("name", [ParsedRuleItem.simple ⟨"required", [], requiredRule⟩])]
        (Value.vObj [("tags", Value.vArr [Value.vStr "a", Value.vStr "b"]),
                     ("name", Value.vStr "bob")]) :=
  (validate_valid_errors_validated _ _).2.2 rfl

/-- C8 (code bug): `validate` is not idempotent on the program.  With
rules `{x: [['when', ['a','empty'], ['required']]], a: ['nullable'],
'a.0': ['nullable']}` and the record `{a: []}`, the first call sees `a`
empty, fails `required` on `x` (valid `false`) and — through the
validated subtree aliased to the record — executes `data.a[0] =
undefined`; the second call on the same record then sees `a` non-empty
and returns valid `true`.  Two calls, two different results, refuting
the claim; the spec's idempotence property is the intent and the
aliasing write the slip. -/
theorem validate_second_call_differs_on_aliased_input :
    parseRules [("x", [RawRule.rWhen (Condition.fEmpty "a") [RawRule.rName "required"] none]),
        ("a", [RawRule.rName "nullable"]), ("a.0", [RawRule.rName "nullable"])] =
      Except.ok idemDemoRules ∧
    readBack aliasDemoStore (HVal.hRef 0) = Value.vObj [("a", Value.vArr [])] ∧
    (hValidate idemDemoRules aliasDemoStore 0).1.valid = false ∧
    (hValidate idemDemoRules aliasDemoStore 0).1.errors =
      [("x", [⟨"validation.required", [("field", Value.vStr "x")]⟩])] ∧
    (hValidate idemDemoRules ((hValidate idemDemoRules aliasDemoStore 0).2) 0).1.valid = true :=
  ⟨rfl, rfl, rfl, rfl, rfl⟩

/-- C9 (code bug): `validate` can mutate the input record.  With rules
`{a: ['nullable'], 'a.0': ['nullable']}` and the record `{a: []}`, field
`a` passes and `set(validated, 'a', data.a)` stores the reference, so the
validated tree aliases the record's array; field `a.0` (value
`undefined`) passes, and `set(validated, 'a.0', undefined)` keeps that
aliased child and assigns `data.a[0] = undefined` — after the call the
input record reads back as `{a: [undefined]}`, not unchanged.  The spec's
no-mutation statement is the intent and the aliasing write the slip. -/
theorem validate_mutates_aliased_input :
    parseRules [("a", [RawRule.rName "nullable"]), ("a.0", [RawRule.rName "nullable"])] =
      Except.ok aliasDemoRules ∧
    readBack aliasDemoStore (HVal.hRef 0) = Value.vObj [("a", Value.vArr [])] ∧
    (hValidate aliasDemoRules aliasDemoStore 0).1.valid = true ∧
    readBack (hValidate aliasDemoRules aliasDemoStore 0).2 (HVal.hRef 0) =
      Value.vObj [("a", Value.vArr [Value.vUndefined])] :=
  ⟨rfl, rfl, rfl, rfl⟩

/-! ## C2, C3 -/

/-- C2: when a rule whose handler bails produces an error, no further
item of the list currently being executed runs — a simple top-level item
truncates the rest of the top-level list, a branch item truncates the
rest of the branch list, and a conditional item always hands control back
to the field's subsequent top-level items (its branch errors are
appended, whatever happened inside the branch).  Concretely, parsing
`['required', 'string', ['min', 5]]` for `field` and validating
`{field: ''}` produces exactly the one `validation.required` error. -/
theorem bail_on_failure_truncates
    : (∀ (field : String) (value allData : Value) (r : ParsedRule) (e : ValidationError)
          (rest : List ParsedRuleItem),
          r.handler.bailOnFailure = true →
          validateSimpleRule field value allData r = some e →
          validateFieldLoop field value allData (ParsedRuleItem.simple r :: rest) = [e]) ∧
      (∀ (field : String) (value allData : Value) (r : ParsedRule) (e : ValidationError)
          (rs : List ParsedRule),
          r.handler.bailOnFailure = true →
          validateSimpleRule field value allData r = some e →
          runBranchRules field value allData (r :: rs) = [e]) ∧
      (∀ (field : String) (value allData : Value) (condition : Condition)
          (thenRules : List ParsedRule) (elseRules : Option (List ParsedRule))
          (rest : List ParsedRuleItem),
          validateFieldLoop field value allData
              (ParsedRuleItem.conditional condition thenRules elseRules :: rest) =
            validateConditionalRule field value allData condition thenRules elseRules ++
              validateFieldLoop field value allData rest) ∧
      parseRules [("field", [RawRule.rName "required", RawRule.rName "string",
          RawRule.rParam "min" [Value.vNum 5]])] = Except.ok bailDemoRules ∧
      (validate bailDemoRules (Value.vObj [("field", Value.vStr "")])).errors =
        [("field", [⟨"validation.required", [("field", Value.vStr "field")]⟩])] := by
  refine ⟨?_, ?_, ?_, rfl, rfl⟩
  · intro field value allData r e rest hbail hval
    simp [validateFieldLoop, hval, hbail]
  · intro field value allData r e rs hbail hval
    simp [runBranchRules, hval, hbail]
  · intro field value allData condition thenRules elseRules rest
    simp [validateFieldLoop]

/-- C2 witness: the truncation branch applied at the concrete bailing
rule `required` on the empty string with a non-empty remainder list. -/
theorem bail_on_failure_truncates_witness :
    validateFieldLoop "field" (Value.vStr "") (Value.vObj [("field", Value.vStr "")])
        (ParsedRuleItem.simple ⟨"required", [], requiredRule⟩ ::
          [ParsedRuleItem.simple ⟨"string", [], stringRule⟩,
           ParsedRuleItem.simple ⟨"min", [Value.vNum 5], minRule⟩]) =
      [⟨"validation.required", [("field", Value.vStr "field")]⟩] :=
  bail_on_failure_truncates.1 "field" (Value.vStr "") (Value.vObj [("field", Value.vStr "")])
    ⟨"required", [], requiredRule⟩ ⟨"validation.required", [("field", Value.vStr "field")]⟩
    _ rfl rfl

/-- C3: when a field's rule list contains the bare `nullable` modifier
and the value is canonically empty, `validateField` returns no errors
whatever the other rules are, and the `nullable` handler itself never
produces an error; for non-empty values the other rules still run:
with rules `['nullable', 'integer']`, `null` and `undefined` are valid,
`"x"` fails with the integer-type error, and `5` is valid. -/
theorem nullable_short_circuits
    : (∀ (field : String) (value allData : Value) (rules : List ParsedRuleItem),
          hasNullableRule rules = true → isEmpty value = true →
          validateField field value allData rules = []) ∧
      (∀ (value : Value) (params : List Value) (allData : Value) (field : String),
          nullableRule.validate value params allData field = none) ∧
      (validate nullableDemoRules (Value.vObj [("field", Value.vNull)])).valid = true ∧
      (validate nullableDemoRules (Value.vObj [("field", Value.vUndefined)])).valid = true ∧
      (validate nullableDemoRules (Value.vObj [("field", Value.vStr "x")])).errors =
        [("field", [⟨"validation.integer", [("field", Value.vStr "field")]⟩])] ∧
      (validate nullableDemoRules (Value.vObj [("field", Value.vNum 5)])).valid = true := by
  refine ⟨?_, fun _ _ _ _ => rfl, rfl, rfl, rfl, rfl⟩
  intro field value allData rules hnul hemp
  simp [validateField, hnul, hemp]

/-- C3 witness: the short-circuit branch applied at a concrete rule list
containing `nullable` and a concrete empty value. -/
theorem nullable_short_circuits_witness :
    validateField "field" Value.vNull (Value.vObj [])
        [ParsedRuleItem.simple ⟨"nullable", [], nullableRule⟩,
         ParsedRuleItem.simple ⟨"integer", [], integerRule⟩] = [] :=
  nullable_short_circuits.1 "field" Value.vNull (Value.vObj [])
    [ParsedRuleItem.simple ⟨"nullable", [], nullableRule⟩,
     ParsedRuleItem.simple ⟨"integer", [], integerRule⟩] rfl rfl

/-! ## C4 -/

theorem mem_dropWhile_of_not {p : Char → Bool} {x : Char} {l : List Char}
    (hm : x ∈ l) (hx : p x = false) : x ∈ l.dropWhile p := by
  induction l with
  | nil => cases hm
  | cons c cs ih =>
    by_cases hc : p c
    · rw [List.dropWhile_cons_of_pos hc]
      rcases List.mem_cons.mp hm with h | h
      · subst h; rw [hx] at hc; cases hc
      · exact ih h
    · rw [List.dropWhile_cons_of_neg hc]
      exact hm

theorem mem_of_mem_dropWhile {p : Char → Bool} {x : Char} {l : List Char}
    (h : x ∈ l.dropWhile p) : x ∈ l :=
  (List.dropWhile_sublist p).mem h

theorem trimWS_toList (s : String) :
    (trimWS s).toList = ((s.toList.dropWhile isWS).reverse.dropWhile isWS).reverse := rfl

theorem mem_trimWS_of_not {x : Char} {s : String}
    (hm : x ∈ s.toList) (hx : isWS x = false) : x ∈ (trimWS s).toList := by
  rw [trimWS_toList, List.mem_reverse]
  exact mem_dropWhile_of_not (by rw [List.mem_reverse]; exact mem_dropWhile_of_not hm hx) hx

theorem mem_of_mem_trimWS {x : Char} {s : String}
    (hm : x ∈ (trimWS s).toList) : x ∈ s.toList := by
  rw [trimWS_toList, List.mem_reverse] at hm
  have := mem_of_mem_dropWhile hm
  rw [List.mem_reverse] at this
  exact mem_of_mem_dropWhile this

theorem trimWS_eq_empty_iff (s : String) :
    trimWS s = "" ↔ ∀ x ∈ s.toList, isWS x = true := by
  constructor
  · intro h x hx
    by_cases hws : isWS x
    · exact hws
    · have hmem := mem_trimWS_of_not hx (by simpa using hws)
      rw [h] at hmem
      cases hmem
  · intro h
    show String.mk _ = String.mk []
    have hnil : s.toList.dropWhile isWS = [] := by
      rw [List.dropWhile_eq_nil_iff]
      intro x hx
      exact h x hx
    rw [hnil]
    rfl

theorem isEmpty_trim_invariant (s : String) :
    isEmpty (Value.vStr (trimWS s)) = isEmpty (Value.vStr s) := by
  show (trimWS (trimWS s) == "") = (trimWS s == "")
  by_cases h : trimWS s = ""
  · rw [h]; rfl
  · have h2 : ¬ trimWS (trimWS s) = "" := by
      intro hc
      apply h
      rw [trimWS_eq_empty_iff] at hc ⊢
      intro x hx
      by_cases hws : isWS x
      · exact hws
      · exact hc x (mem_trimWS_of_not hx (by simpa using hws))
    simp [h, h2]

/-- C4: the canonical emptiness predicate holds for exactly `null`,
`undefined`, strings that trim to empty (including the empty string), and
the empty array; it fails on `0`, `false`, and the empty object; it is
invariant under trimming; and this one predicate is what the `@empty`,
`@filled`, `filled` and `empty` conditions, the skip-if-empty policy, and
the nullable short-circuit all consult. -/
theorem isEmpty_canonical
    : (∀ v : Value, isEmpty v = true ↔
          (v = Value.vNull ∨ v = Value.vUndefined ∨
            (∃ s, v = Value.vStr s ∧ trimWS s = "") ∨ v = Value.vArr [])) ∧
      isEmpty (Value.vNum 0) = false ∧
      isEmpty (Value.vBool false) = false ∧
      isEmpty (Value.vObj []) = false ∧
      (∀ s, isEmpty (Value.vStr (trimWS s)) = isEmpty (Value.vStr s)) ∧
      (∀ (v d : Value) (f : String), evaluateCondition Condition.sEmpty v d f = isEmpty v) ∧
      (∀ (v d : Value) (f : String), evaluateCondition Condition.sFilled v d f = !isEmpty v) ∧
      (∀ (fld : String) (v d : Value) (f : String),
          evaluateCondition (Condition.fEmpty fld) v d f = isEmpty (get d fld)) ∧
      (∀ (fld : String) (v d : Value) (f : String),
          evaluateCondition (Condition.fFilled fld) v d f = !isEmpty (get d fld)) ∧
      (∀ (field : String) (value allData : Value) (r : ParsedRule),
          r.handler.skipIfEmpty = true → isEmpty value = true →
          validateSimpleRule field value allData r = none) ∧
      (∀ (field : String) (value allData : Value) (rules : List ParsedRuleItem),
          hasNullableRule rules = true → isEmpty value = true →
          validateField field value allData rules = []) := by
  refine ⟨?_, rfl, rfl, rfl, isEmpty_trim_invariant,
      fun _ _ _ => rfl, fun _ _ _ => rfl, fun _ _ _ _ => rfl, fun _ _ _ _ => rfl, ?_, ?_⟩
  · intro v
    cases v with
    | vNull => simp [isEmpty]
    | vUndefined => simp [isEmpty]
    | vBool b => simp [isEmpty]
    | vNum n => simp [isEmpty]
    | vStr s => simp [isEmpty]
    | vArr xs => simp [isEmpty, List.isEmpty_iff]
    | vObj props => simp [isEmpty]
  · intro field value allData r hskip hemp
    simp [validateSimpleRule, hskip, hemp]
  · intro field value allData rules hnul hemp
    simp [validateField, hnul, hemp]

/-- C4 witness: the skip-if-empty branch applied at the concrete
`min` handler (default flags) and a concrete whitespace-only string. -/
theorem isEmpty_canonical_witness :
    validateSimpleRule "f" (Value.vStr "   ") (Value.vObj [])
      ⟨"min", [Value.vNum 5], minRule⟩ = none :=
  isEmpty_canonical.2.2.2.2.2.2.2.2.2.1 "f" (Value.vStr "   ") (Value.vObj [])
    ⟨"min", [Value.vNum 5], minRule⟩ rfl rfl

/-! ## C5 -/

/-- C5 counterexample: a wildcard over a keyed container does not iterate
in insertion order when an integer-like key is present.  In the record
`{m: {b: 1, "0": 2}}` the key `b` was inserted before `"0"`, yet
`Object.entries` enumerates the canonical array-index key `"0"` first, so
`m.*` expands to `m.0` before `m.b` — not to the insertion order
`m.b, m.0` the claim requires. -/
theorem expandWildcards_object_keys_counterexample :
    expandWildcards "m.*"
        (Value.vObj [("m", Value.vObj [("b", Value.vNum 1), ("0", Value.vNum 2)])]) =
      [("m.0", Value.vNum 2), ("m.b", Value.vNum 1)] ∧
    [("m.0", Value.vNum 2), ("m.b", Value.vNum 1)] ≠
      ([("m.b", Value.vNum 1), ("m.0", Value.vNum 2)] : List (String × Value)) := by
  refine ⟨rfl, ?_⟩
  intro h
  simp at h

theorem jsKeyOrder_of_no_index (props : List (String × Value))
    (h : props.all (fun p => !isArrayIndex p.1) = true) : jsKeyOrder props = props := by
  unfold jsKeyOrder
  have hall := List.all_eq_true.mp h
  have h1 : props.filter (fun p => isArrayIndex p.1) = [] := by
    rw [List.filter_eq_nil_iff]
    intro p hp
    simpa using hall p hp
  have h2 : props.filter (fun p => !isArrayIndex p.1) = props := by
    rw [List.filter_eq_self]
    intro p hp
    exact hall p hp
  rw [h1, h2]
  rfl

/-- C5 (amended): `expandWildcards` is deterministic and ordered — a
wildcard segment over an array iterates in ascending index order; over a
keyed container it enumerates canonical array-index keys first in
ascending numeric order and the remaining keys in insertion order (the
host own-property order), concatenating the literal index/key into the
concrete path; a pattern without a wildcard addresses the single pair
`(pattern, get(data, pattern))`; `items.*.name` over
`{items: [{name:'a'},{name:'b'}]}` yields exactly `items.0.name` then
`items.1.name`, and over `{items: []}` or a record without `items` it
yields zero entries rather than an error, as does any non-container value
at a wildcard segment. -/
theorem expandWildcards_ordered
    : expandWildcards "items.*.name"
        (Value.vObj [("items", Value.vArr [Value.vObj [("name", Value.vStr "a")],
                                           Value.vObj [("name", Value.vStr "b")]])]) =
        [("items.0.name", Value.vStr "a"), ("items.1.name", Value.vStr "b")] ∧
      expandWildcards "items.*.name" (Value.vObj [("items", Value.vArr [])]) = [] ∧
      expandWildcards "items.*.name" (Value.vObj []) = [] ∧
      (∀ (pattern : String) (data : Value), isWildcardPattern pattern = false →
          expandWildcards pattern data = [(pattern, get data pattern)]) ∧
      (∀ (rest : List String) (xs : List Value) (path : String)
          (acc : List (String × Value)),
          expandRecursive ("*" :: rest) (Value.vArr xs) path acc =
            xs.enum.foldl
              (fun a p => expandRecursive rest p.2 (path ++ "." ++ toString p.1) a) acc) ∧
      (∀ (rest : List String) (props : List (String × Value)) (path : String)
          (acc : List (String × Value)),
          expandRecursive ("*" :: rest) (Value.vObj props) path acc =
            (jsKeyOrder props).foldl
              (fun a p => expandRecursive rest p.2 (path ++ "." ++ p.1) a) acc) ∧
      (∀ props : List (String × Value),
          props.all (fun p => !isArrayIndex p.1) = true → jsKeyOrder props = props) ∧
      (∀ (rest : List String) (path : String) (acc : List (String × Value)),
          expandRecursive ("*" :: rest) Value.vNull path acc = acc ∧
          expandRecursive ("*" :: rest) Value.vUndefined path acc = acc ∧
          (∀ s, expandRecursive ("*" :: rest) (Value.vStr s) path acc = acc) ∧
          (∀ n, expandRecursive ("*" :: rest) (Value.vNum n) path acc = acc) ∧
          (∀ b, expandRecursive ("*" :: rest) (Value.vBool b) path acc = acc)) := by
  refine ⟨rfl, rfl, rfl, ?_, fun _ _ _ _ => rfl, fun _ _ _ _ => rfl, jsKeyOrder_of_no_index,
      fun _ _ _ => ⟨rfl, rfl, fun _ => rfl, fun _ => rfl, fun _ => rfl⟩⟩
  intro pattern data h
  unfold expandWildcards
  rw [h]
  rfl

/-- C5 witness: the no-wildcard branch of the theorem applied at a
concrete plain pattern and record. -/
theorem expandWildcards_ordered_witness :
    expandWildcards "name" (Value.vObj [("name", Value.vNum 1)]) =
      [("name", Value.vNum 1)] :=
  expandWildcards_ordered.2.2.2.1 "name" (Value.vObj [("name", Value.vNum 1)]) rfl

/-! ## Parser failure propagation helpers (shared by C6 and C10) -/

theorem mapExcept_ne_ok_of_mem {α β ε : Type} (f : α → Except ε β) {x : α} {xs : List α}
    (hx : x ∈ xs) (hbad : ∀ y, f x ≠ Except.ok y) :
    ∀ ys, mapExcept f xs ≠ Except.ok ys := by
  induction hx with
  | head as =>
    intro ys h
    unfold mapExcept at h
    cases hfx : f x with
    | error e => rw [hfx] at h; cases h
    | ok y => exact hbad y hfx
  | tail b hmem ih =>
    intro ys h
    unfold mapExcept at h
    rename_i as
    cases hfb : f b with
    | error e => rw [hfb] at h; cases h
    | ok y =>
      rw [hfb] at h
      cases hmas : mapExcept f as with
      | error e => rw [hmas] at h; cases h
      | ok ys2 => exact ih ys2 hmas

theorem mem_insertIdxKey {α : Type} (p q : String × α) (l : List (String × α))
    (h : q = p ∨ q ∈ l) : q ∈ insertIdxKey p l := by
  induction l with
  | nil =>
    rcases h with h | h
    · simp [insertIdxKey, h]
    · cases h
  | cons r rs ih =>
    unfold insertIdxKey
    split
    · rcases h with h | h
      · simp [h]
      · simp [h]
    · rcases h with h | h
      · exact List.mem_cons_of_mem r (ih (Or.inl h))
      · rcases List.mem_cons.mp h with h | h
        · simp [h]
        · exact List.mem_cons_of_mem r (ih (Or.inr h))

theorem mem_sortIdxKeys {α : Type} {q : String × α} {l : List (String × α)}
    (h : q ∈ l) : q ∈ sortIdxKeys l := by
  induction l with
  | nil => cases h
  | cons p ps ih =>
    unfold sortIdxKeys
    rcases List.mem_cons.mp h with h | h
    · exact mem_insertIdxKey p q _ (Or.inl h)
    · exact mem_insertIdxKey p q _ (Or.inr (ih h))

theorem mem_jsKeyOrder {α : Type} {q : String × α} {l : List (String × α)}
    (h : q ∈ l) : q ∈ jsKeyOrder l := by
  unfold jsKeyOrder
  by_cases hidx : isArrayIndex q.1
  · exact List.mem_append_left _ (mem_sortIdxKeys (List.mem_filter.mpr ⟨h, by simpa using hidx⟩))
  · exact List.mem_append_right _ (List.mem_filter.mpr ⟨h, by simpa using hidx⟩)

theorem parseRules_ne_ok_of_bad_field (rules : List (String × List RawRule))
    (field : String) (frs : List RawRule) (hmem : (field, frs) ∈ rules)
    (hbad : ∀ ys, parseFieldRules frs ≠ Except.ok ys) :
    ∀ prs, parseRules rules ≠ Except.ok prs := by
  unfold parseRules
  refine mapExcept_ne_ok_of_mem _ (mem_jsKeyOrder hmem) ?_
  intro y h
  simp only at h
  cases hps : parseFieldRules frs with
  | error e => rw [hps] at h; cases h
  | ok ps => exact hbad ps hps

theorem parseSimpleRule_rWhen (c : Condition) (t : List RawRule)
    (e : Option (List RawRule)) :
    parseSimpleRule (RawRule.rWhen c t e) = Except.error (ParseError.unknownRule "when") := rfl

theorem parseSimpleRule_ne_ok_of_when (b : RawRule) (hb : isWhenItem b = true) :
    ∀ y, parseSimpleRule b ≠ Except.ok y := by
  intro y
  cases b <;> simp [isWhenItem] at hb
  rw [parseSimpleRule_rWhen]
  intro hc
  cases hc

theorem parseRule_ne_ok_of_nested_when (item : RawRule) (h : hasNestedWhen item = true) :
    ∀ pr, parseRule item ≠ Except.ok pr := by
  cases item with
  | rName n => simp [hasNestedWhen] at h
  | rParam n ps => simp [hasNestedWhen] at h
  | rBad v => simp [hasNestedWhen] at h
  | rWhen c t e =>
    intro pr hok
    cases e with
    | none =>
      have hok2 : (match mapExcept parseSimpleRule t with
          | Except.error e2 => Except.error e2
          | Except.ok ts => Except.ok (ParsedRuleItem.conditional c ts none)) =
          Except.ok pr := hok
      have hsplit : ∃ b ∈ t, isWhenItem b = true := by
        simpa [hasNestedWhen] using h
      rcases hsplit with ⟨b, hbmem, hbwhen⟩
      cases hm : mapExcept parseSimpleRule t with
      | error e2 => rw [hm] at hok2; cases hok2
      | ok ts =>
        exact mapExcept_ne_ok_of_mem _ hbmem (parseSimpleRule_ne_ok_of_when b hbwhen) ts hm
    | some es =>
      have hok2 : (match mapExcept parseSimpleRule t with
          | Except.error e2 => Except.error e2
          | Except.ok ts =>
            match mapExcept parseSimpleRule es with
            | Except.error e2 => Except.error e2
            | Except.ok es2 => Except.ok (ParsedRuleItem.conditional c ts (some es2))) =
          Except.ok pr := hok
      have hsplit : (∃ b ∈ t, isWhenItem b = true) ∨ ∃ b ∈ es, isWhenItem b = true := by
        simpa [hasNestedWhen] using h
      rcases hsplit with ⟨b, hbmem, hbwhen⟩ | ⟨b, hbmem, hbwhen⟩
      · cases hm : mapExcept parseSimpleRule t with
        | error e2 => rw [hm] at hok2; cases hok2
        | ok ts =>
          exact mapExcept_ne_ok_of_mem _ hbmem (parseSimpleRule_ne_ok_of_when b hbwhen) ts hm
      · cases hm : mapExcept parseSimpleRule t with
        | error e2 => rw [hm] at hok2; cases hok2
        | ok ts =>
          rw [hm] at hok2
          cases hm2 : mapExcept parseSimpleRule es with
          | error e2 => rw [hm2] at hok2; cases hok2
          | ok es2 =>
            exact mapExcept_ne_ok_of_mem _ hbmem
              (parseSimpleRule_ne_ok_of_when b hbwhen) es2 hm2

/-! ## C6 -/

/-- C6 counterexample: the code has no separate structural error class —
a rule entry that is neither a string nor a sequence raises the very same
`InvalidRuleNameException` class that name-check failures raise (with
reason `Invalid rule format`), so the claimed three-way distinction
between `StructuralSpecError` and `InvalidRuleNameError` fails at the
concrete entry `5`, which lands in the same class as the bad name
`"Bad"`. -/
theorem structural_error_not_distinct_counterexample :
    parseSimpleRule (RawRule.rBad (Value.vNum 5)) =
      Except.error (ParseError.invalidRuleName "5" "Invalid rule format") ∧
    parseSimpleRule (RawRule.rName "Bad") =
      Except.error (ParseError.invalidRuleName "Bad"
        "Rule name must start with a lowercase letter and contain only lowercase letters, numbers, and underscores") :=
  ⟨rfl, rfl⟩

/-- C6 (amended): construction failures are classified by two error
classes, not three — a rule entry that is neither a string nor a sequence
raises `InvalidRuleNameError` with reason `Invalid rule format` (there is
no separate structural class), a name failing the length or pattern check
raises `InvalidRuleNameError`, and a well-formed name absent from the
registry raises `UnknownRuleError`; all are raised while building the
ParsedRuleSet, before any data is validated, any such failure inside any
field's list makes the whole construction fail, and a `Validator` that
fails to construct is never produced. -/
theorem parse_error_taxonomy
    : (∀ v : Value, parseSimpleRule (RawRule.rBad v) =
          Except.error (ParseError.invalidRuleName (jsToString v) "Invalid rule format")) ∧
      (∀ name : String, validateRuleName name = none ∨
          ∃ reason, validateRuleName name = some (ParseError.invalidRuleName name reason)) ∧
      (∀ (name : String) (params : List Value) (e : ParseError),
          validateRuleName name = some e →
          parseSimpleRule (RawRule.rName name) = Except.error e ∧
          parseSimpleRule (RawRule.rParam name params) = Except.error e) ∧
      (∀ (name : String) (params : List Value),
          validateRuleName name = none → getRule name = none →
          parseSimpleRule (RawRule.rName name) = Except.error (ParseError.unknownRule name) ∧
          parseSimpleRule (RawRule.rParam name params) =
            Except.error (ParseError.unknownRule name)) ∧
      (∀ (rules : List (String × List RawRule)) (field : String) (frs : List RawRule)
          (r : RawRule), (field, frs) ∈ rules → r ∈ frs →
          (∀ pr, parseRule r ≠ Except.ok pr) →
          ∀ prs, parseRules rules ≠ Except.ok prs) ∧
      (∀ (rules : List (String × List RawRule)) (e : ParseError),
          parseRules rules = Except.error e → mkValidator rules = Except.error e) := by
  refine ⟨fun v => rfl, ?_, ?_, ?_, ?_, ?_⟩
  · intro name
    unfold validateRuleName
    split
    · exact Or.inr ⟨_, rfl⟩
    · split
      · exact Or.inr ⟨_, rfl⟩
      · exact Or.inl rfl
  · intro name params e h
    constructor <;> simp [parseSimpleRule, h]
  · intro name params h1 h2
    constructor <;> simp [parseSimpleRule, h1, h2]
  · intro rules field frs r hmem hrmem hbad
    exact parseRules_ne_ok_of_bad_field rules field frs hmem
      (mapExcept_ne_ok_of_mem _ hrmem hbad)
  · intro rules e h
    unfold mkValidator
    rw [h]

/-- C6 witness: the unknown-name branch applied at the concrete
well-formed but unregistered name `zzz`. -/
theorem parse_error_taxonomy_witness :
    parseSimpleRule (RawRule.rName "zzz") = Except.error (ParseError.unknownRule "zzz") :=
  (parse_error_taxonomy.2.2.2.1 "zzz" [] rfl rfl).1

/-! ## C7 -/

/-- C10: a conditional branch containing a conditional item makes
construction fail — the nested `['when', ...]` array is parsed by
`parseSimpleRule`, which destructures it to the rule name `when`; that
name passes the name-pattern check but is not present in the registry, so
`UnknownRuleException` is thrown, and any rule specification in which
some field's list contains such a nested conditional never produces a
parsed rule set. -/
theorem nested_conditional_never_parses
    : validateRuleName "when" = none ∧
      getRule "when" = none ∧
      (∀ (c : Condition) (t : List RawRule) (e : Option (List RawRule)),
          parseSimpleRule (RawRule.rWhen c t e) =
            Except.error (ParseError.unknownRule "when")) ∧
      (∀ (rules : List (String × List RawRule)) (field : String) (frs : List RawRule)
          (item : RawRule),
          (field, frs) ∈ rules → item ∈ frs → hasNestedWhen item = true →
          ∀ prs, parseRules rules ≠ Except.ok prs) := by
  refine ⟨rfl, rfl, parseSimpleRule_rWhen, ?_⟩
  intro rules field frs item hmem hitem hnest
  exact parseRules_ne_ok_of_bad_field rules field frs hmem
    (mapExcept_ne_ok_of_mem _ hitem (parseRule_ne_ok_of_nested_when item hnest))

/-- C10 witness: a concrete specification whose then-branch holds a
nested conditional fails to parse (instantiated at the empty candidate
parse result). -/
theorem nested_conditional_never_parses_witness :
    parseRules [("f", [RawRule.rWhen Condition.sEmpty
        [RawRule.rWhen Condition.sEmpty [RawRule.rName "required"] none] none])] ≠
      Except.ok [] :=
  nested_conditional_never_parses.2.2.2
    [("f", [RawRule.rWhen Condition.sEmpty
        [RawRule.rWhen Condition.sEmpty [RawRule.rName "required"] none] none])]
    "f" [RawRule.rWhen Condition.sEmpty
        [RawRule.rWhen Condition.sEmpty [RawRule.rName "required"] none] none]
    (RawRule.rWhen Condition.sEmpty
        [RawRule.rWhen Condition.sEmpty [RawRule.rName "required"] none] none)
    (List.mem_singleton.mpr rfl) (List.mem_singleton.mpr rfl) rfl []

end Validation
